import Mathlib

/-!
Verification of the `cereal` self-describing binary serialization codec.

This file gives a shallow embedding of the codec's Go source:

* the `DataType` tag registry (type_enum.go),
* the variable-length integer codec (`binary.PutUvarint` / `binary.Uvarint` /
  `binary.PutVarint` / `binary.Varint` from Go's standard library, which the
  reader and writer call),
* the in-memory seekable byte view `byteSeeker` (reader.go),
* the `Reader` decode dispatch (reader.go, the revision that handles
  Byte / Bytes / String / Integer / UnsignedInteger / Boolean / KeyValueMap),
* the `Writer` encode dispatch (writer.go, the revision backed by the
  counting `HashWriter` sink, with tag suppression and KeyValueMap support),
* the chunked LZ4 block-compression write loop (the compression primitive
  itself is an external collaborator and is taken as a function parameter).

Bytes are modelled as `Nat` (always < 256 for real streams), byte slices as
`List Nat`, Go strings as their UTF-8 byte lists, `uint64` as `Nat` with
explicit `% 2 ^ 64` where Go arithmetic can wrap, and `int64` as `Int`.
-/

/-- binary.MaxVarintLen64 from Go's encoding/binary package. -/
def maxVarintLen64 : Nat := 10

/-- the closed tag enumeration from the source (`DataType` constants,
declared with iota so the wire codes are contiguous from 0). -/
inductive DataType where
  | Any
  | Boolean
  | Integer
  | UnsignedInteger
  | Float
  | Byte
  | Bytes
  | String
  | StringSlice
  | KeyValueMap
deriving DecidableEq, Repr

/-- wire code of a tag: the iota value of the Go constant. -/
def DataType.code : DataType → Nat
  | .Any => 0
  | .Boolean => 1
  | .Integer => 2
  | .UnsignedInteger => 3
  | .Float => 4
  | .Byte => 5
  | .Bytes => 6
  | .String => 7
  | .StringSlice => 8
  | .KeyValueMap => 9

/-- binary.PutUvarint: base-128 continuation-bit varint, little-endian
7-bit groups.  Go loops `for v >= 0x80`; a uint64 needs at most 10
iterations, so the loop is modelled with a structural counter of 10 that a
uint64 input can never exhaust (the counter-zero arm is unreachable for
`v < 2 ^ 64`). -/
def putUvarintAux : Nat → Nat → List Nat
  | 0, v => [v % 0x80]
  | fuel + 1, v =>
      if v < 0x80 then [v] else (v % 0x80 + 0x80) :: putUvarintAux fuel (v / 0x80)

/-- binary.PutUvarint applied to a uint64 value. -/
def putUvarint (v : Nat) : List Nat := putUvarintAux maxVarintLen64 v

/-- the zigzag mapping used by binary.PutVarint:
`ux := uint64(x) << 1; if x < 0 { ux = ^ux }`. -/
def zigzag (x : Int) : Nat :=
  if 0 ≤ x then (2 * x).toNat else (-(2 * x) - 1).toNat

/-- binary.PutVarint: zigzag then unsigned varint. -/
def putVarint (x : Int) : List Nat := putUvarint (zigzag x)

/-- loop body of binary.Uvarint.  The pair returned is
(decoded value, byte count): a positive count is success, zero means the
buffer ended before a terminator byte (buf too small), negative means
overflow.  Accumulation is uint64 arithmetic, hence the `% 2 ^ 64`. -/
def uvarintLoop : List Nat → Nat → Nat → Nat → Nat × Int
  | [], _, _, _ => (0, 0)
  | b :: rest, i, x, s =>
      if i = maxVarintLen64 then (0, -(i + 1 : Int))
      else if b < 0x80 then
        if i = maxVarintLen64 - 1 ∧ 1 < b then (0, -(i + 1 : Int))
        else ((x ||| b <<< s) % 2 ^ 64, (i + 1 : Int))
      else uvarintLoop rest (i + 1) ((x ||| (b % 0x80) <<< s) % 2 ^ 64) (s + 7)

/-- binary.Uvarint on a buffer. -/
def goUvarint (buf : List Nat) : Nat × Int := uvarintLoop buf 0 0 0

/-- binary.Varint: unsigned decode then zigzag inverse
(`x := int64(ux >> 1); if ux&1 != 0 { x = ^x }`). -/
def goVarint (buf : List Nat) : Int × Int :=
  let p := goUvarint buf
  (if p.1 % 2 = 0 then (p.1 / 2 : Int) else -(p.1 / 2 : Int) - 1, p.2)

/-- the in-memory seekable byte view (reader.go `byteSeeker`): a buffer and
an int64 cursor. -/
structure ByteSeeker where
  buf : List Nat
  offset : Int
deriving DecidableEq, Repr

/-- byteSeeker.Read, the revision that accompanies the full Reader: the
end-of-content test compares the cursor with `len(b.buf)`.  The result is
(bytes copied into the head of the destination, n, err == io.EOF, new
state); the destination is only known by its length `plen`, and Go's `copy`
clips to both the destination length and the remaining content. -/
def bsRead (b : ByteSeeker) (plen : Nat) : List Nat × Nat × Bool × ByteSeeker :=
  if (b.buf.length : Int) ≤ b.offset then ([], 0, true, b)
  else
    let start := b.offset.toNat
    let stop := min (start + plen) b.buf.length
    ((b.buf.drop start).take (stop - start), stop - start, false,
      { b with offset := (stop : Int) })

/-- byteSeeker.Read from the other revisions of reader.go, whose
end-of-content test compares the cursor with `len(p)` — the length of the
destination buffer — instead of `len(b.buf)`. -/
def bsReadV1 (b : ByteSeeker) (plen : Nat) : List Nat × Nat × Bool × ByteSeeker :=
  if (plen : Int) < b.offset then ([], 0, true, b)
  else
    let start := b.offset.toNat
    let stop := min (start + plen) b.buf.length
    ((b.buf.drop start).take (stop - start), stop - start, false,
      { b with offset := (stop : Int) })

/-- error kinds surfaced by the reader and the byte view. -/
inductive RErr where
  | eofE
  | invalidWhence
  | invalidOffset
  | bufTooSmall
  | overflow
  | typeMismatch (want : DataType) (got : Nat)
deriving DecidableEq, Repr

/-- the position the switch in byteSeeker.Seek assigns for a recognized
whence (0 = io.SeekStart, 1 = io.SeekCurrent, 2 = io.SeekEnd). -/
def seekTarget (b : ByteSeeker) (offset : Int) (whence : Nat) : Int :=
  if whence = 0 then offset
  else if whence = 1 then b.offset + offset
  else (b.buf.length : Int) - 1 + offset

/-- byteSeeker.Seek: assigns the target first, then range-checks the
already-mutated cursor; an unrecognized whence returns before mutating.
Result is (returned position, error, new state). -/
def bsSeek (b : ByteSeeker) (offset : Int) (whence : Nat) : Int × Option RErr × ByteSeeker :=
  if whence ≤ 2 then
    let b' : ByteSeeker := { b with offset := seekTarget b offset whence }
    if (b'.buf.length : Int) - 1 < b'.offset then (0, some .eofE, b')
    else if b'.offset < 0 then (0, some .invalidOffset, b')
    else (b'.offset, none, b')
  else (0, some .invalidWhence, b)

/-- Reader.readByte: a one-byte destination; the zero value of the
destination is returned when nothing was copied. -/
def rdByte (st : ByteSeeker) : Nat × Bool × ByteSeeker :=
  let r := bsRead st 1
  (r.1.headD 0, r.2.2.1, r.2.2.2)

/-- result of the varint-reading helpers readUint / readInt. -/
inductive VarintRes (α : Type) where
  | ok (v : α) (st : ByteSeeker)
  | fail (e : RErr) (st : ByteSeeker)
deriving DecidableEq, Repr

/-- Reader.readUint: reads a `binary.MaxVarintLen64`-byte look-ahead window
(zero-filled beyond the bytes actually copied, as Go's `make` zero-fills
the window), decodes it with binary.Uvarint, and when decoding consumed
fewer bytes than were read seeks the source backwards by the unread count.
An io.EOF from the window read is tolerated (`err != io.EOF && err != nil`). -/
def readUintR (st : ByteSeeker) : VarintRes Nat :=
  let r := bsRead st maxVarintLen64
  let copied := r.1
  let n := r.2.1
  let st1 := r.2.2.2
  let window := copied ++ List.replicate (maxVarintLen64 - copied.length) 0
  let d := goUvarint window
  if 0 < d.2 then
    let rewind : Int := (n : Int) - d.2
    if 0 < rewind then
      let s := bsSeek st1 (-rewind) 1
      match s.2.1 with
      | none => .ok d.1 s.2.2
      | some e => .fail e s.2.2
    else .ok d.1 st1
  else if d.2 = 0 then .fail .bufTooSmall st1
  else .fail .overflow st1

/-- Reader.readInt: identical window-and-rewind discipline with
binary.Varint. -/
def readIntR (st : ByteSeeker) : VarintRes Int :=
  let r := bsRead st maxVarintLen64
  let copied := r.1
  let n := r.2.1
  let st1 := r.2.2.2
  let window := copied ++ List.replicate (maxVarintLen64 - copied.length) 0
  let d := goVarint window
  if 0 < d.2 then
    let rewind : Int := (n : Int) - d.2
    if 0 < rewind then
      let s := bsSeek st1 (-rewind) 1
      match s.2.1 with
      | none => .ok d.1 s.2.2
      | some e => .fail e s.2.2
    else .ok d.1 st1
  else if d.2 = 0 then .fail .bufTooSmall st1
  else .fail .overflow st1

/-- Reader.readString: unsigned-varint length, then that many bytes into a
zero-initialized `make([]byte, len)` buffer (a short read leaves the tail
zero; byteSeeker.Read only reports an error at end of content). -/
def readStringR (st : ByteSeeker) : VarintRes (List Nat) :=
  match readUintR st with
  | .fail e st1 => .fail e st1
  | .ok len st1 =>
      let r := bsRead st1 len
      if r.2.2.1 then .fail .eofE r.2.2.2
      else .ok (r.1 ++ List.replicate (len - r.1.length) 0) r.2.2.2

/-- Go values the Reader can return (the `interface{}` results). -/
inductive RVal where
  | vInt (v : Int)
  | vUint (v : Nat)
  | vByte (b : Nat)
  | vBytes (bs : List Nat)
  | vStr (s : List Nat)
  | vBool (b : Bool)
  | vMap (m : List (List Nat × RVal))

/-- map assignment `m[key] = val` on the association-list model of a Go
map (last write wins). -/
def mapPut (m : List (List Nat × RVal)) (k : List Nat) (v : RVal) : List (List Nat × RVal) :=
  match m with
  | [] => [(k, v)]
  | (k', v') :: rest => if k' = k then (k, v) :: rest else (k', v') :: mapPut rest k v

/-- result of Reader.Read / Reader.ReadGivenType: success carries the value
and its resolved DataType; `panicked` models the Go `panic(...)` on an
unknown tag, carrying the offending code; `fuelOut` is the recursion
bound of the model, never reached with enough fuel. -/
inductive RRes where
  | ok (v : RVal) (t : DataType) (st : ByteSeeker)
  | fail (e : RErr) (st : ByteSeeker)
  | panicked (code : Nat) (st : ByteSeeker)
  | fuelOut (st : ByteSeeker)

/-- the three mutually recursive pieces of the Reader dispatch:
Reader.Read (main), Reader.ReadGivenType (given) and the entry loop of
Reader.readKeyValueMap (kvloop). -/
inductive RCall where
  | main (expected : DataType)
  | given (code : Nat)
  | kvloop (count : Nat) (acc : List (List Nat × RVal))

/-- Reader.Read / Reader.ReadGivenType / Reader.readKeyValueMap as one
fuel-indexed function (the fuel only bounds the recursion through nested
KeyValueMap values; every theorem below instantiates it large enough).
Read reads the tag byte, rejects a tag different from a non-Any expected
type, and dispatches on the tag's code; ReadGivenType dispatches on a
given code, with a panic on any code outside the switch (in particular
Float and StringSlice have no case in this revision of the source);
readKeyValueMap reads an unsigned-varint entry count and then count
(tagless String key, tagged value) pairs. -/
def readerGo : Nat → RCall → ByteSeeker → RRes
  | 0, _, st => .fuelOut st
  | fuel + 1, c, st =>
      match c with
      | .main expected =>
          let r := rdByte st
          let t := r.1
          let st1 := r.2.2
          if r.2.1 then .fail .eofE st1
          else if expected ≠ .Any ∧ t ≠ expected.code then
            .fail (.typeMismatch expected t) st1
          else readerGo fuel (.given t) st1
      | .given code =>
          if code = DataType.Byte.code then
            let r := rdByte st
            if r.2.1 then .fail .eofE r.2.2 else .ok (.vByte r.1) .Byte r.2.2
          else if code = DataType.Bytes.code then
            match readUintR st with
            | .fail e st1 => .fail e st1
            | .ok len st1 =>
                let r := bsRead st1 len
                if r.2.2.1 then .fail .eofE r.2.2.2
                else .ok (.vBytes (r.1 ++ List.replicate (len - r.1.length) 0)) .Bytes r.2.2.2
          else if code = DataType.String.code then
            match readStringR st with
            | .fail e st1 => .fail e st1
            | .ok s st1 => .ok (.vStr s) .String st1
          else if code = DataType.Integer.code then
            match readIntR st with
            | .fail e st1 => .fail e st1
            | .ok v st1 => .ok (.vInt v) .Integer st1
          else if code = DataType.UnsignedInteger.code then
            match readUintR st with
            | .fail e st1 => .fail e st1
            | .ok v st1 => .ok (.vUint v) .UnsignedInteger st1
          else if code = DataType.Boolean.code then
            let r := rdByte st
            if r.2.1 then .fail .eofE r.2.2 else .ok (.vBool (r.1 ≠ 0)) .Boolean r.2.2
          else if code = DataType.KeyValueMap.code then
            match readUintR st with
            | .fail e st1 => .fail e st1
            | .ok count st1 => readerGo fuel (.kvloop count []) st1
          else .panicked code st
      | .kvloop count acc =>
          match count with
          | 0 => .ok (.vMap acc) .KeyValueMap st
          | c + 1 =>
              match readStringR st with
              | .fail e st1 => .fail e st1
              | .ok key st1 =>
                  match readerGo fuel (.main .Any) st1 with
                  | .ok v _ st2 => readerGo fuel (.kvloop c (mapPut acc key v)) st2
                  | other => other

/-- a Go floating-point input value, represented by its IEEE-754 bit
pattern at its native width (the codec never does float arithmetic, it
only copies the bits onto the wire). -/
inductive FloatVal where
  | f32 (bits : Nat)
  | f64 (bits : Nat)

/-- numeric.go floatValue: returns float32 inputs as float32 and float64
inputs as float64 — it preserves the width instead of promoting. -/
def floatValue : FloatVal → FloatVal := fun v => v

/-- big-endian byte list of a `width`-byte value, most significant byte
first (what binary.Write with binary.BigEndian produces for the bits). -/
def beBytes (width bits : Nat) : List Nat :=
  (List.range width).map fun i => bits / 2 ^ (8 * (width - 1 - i)) % 256

/-- the bytes binary.Write(w, binary.BigEndian, v) emits for a float value:
4 bytes for a float32, 8 bytes for a float64. -/
def floatWireBytes : FloatVal → List Nat
  | .f32 bits => beBytes 4 bits
  | .f64 bits => beBytes 8 bits

/-- a value accepted by Writer.Write: one case per arm of its type switch.
Integer widths are already coerced to their 64-bit canonical form
(int64Value / uint64Value from numeric.go); `vkvmap` carries the map
entries in the (arbitrary) order Go's map iteration yields them. -/
inductive Value where
  | vuint (v : Nat)
  | vint (v : Int)
  | vfloat (f : FloatVal)
  | vbytes (bs : List Nat)
  | vstr (s : List Nat)
  | vstrSlice (ss : List (List Nat))
  | vbool (b : Bool)
  | vkvmap (entries : List (List Nat × Value))

/-- Writer state: the bytes that have reached the HashWriter sink (whose
`Count()` — the writer's `Offset()` — is their length) and the
tag-suppression toggle. -/
structure WState where
  out : List Nat
  excludeWriteType : Bool
deriving DecidableEq, Repr

/-- HashWriter.Count, exposed by the writer as Offset(). -/
def wCount (w : WState) : Nat := w.out.length

/-- HashWriter.WriteByte. -/
def wByte (w : WState) (b : Nat) : WState := { w with out := w.out ++ [b] }

/-- HashWriter.Write of a byte slice. -/
def wBytes (w : WState) (bs : List Nat) : WState := { w with out := w.out ++ bs }

/-- the `if !w.excludeWriteType { w.w.WriteByte(byte(t)) }` preamble shared
by every typed write. -/
def writeTag (w : WState) (t : DataType) : WState :=
  if w.excludeWriteType then w else wByte w t.code

/-- Writer.appendBytes: unsigned-varint length, then the raw bytes. -/
def appendBytesW (w : WState) (b : List Nat) : WState :=
  wBytes (wBytes w (putUvarint b.length)) b

/-- Writer.writeString: offset is the count before the (optional) tag. -/
def writeStringW (w : WState) (s : List Nat) : WState × Nat :=
  let off := wCount w
  (appendBytesW (writeTag w .String) s, off)

mutual

/-- the type-dispatch switch of Writer.Write together with the per-type
writers writeUint / writeInt / writeFloat / writeBytes / writeString /
writeStringSlice / writeBoolean / writeKeyValueMap: returns the new state
and the offset each of them returns (the count before its own writes).
writeKeyValueMap suppresses the tag for each key, restores tag-writing for
each value (written through the full Write), and finally restores the
toggle it found.  The inner `w.Write(v)` of writeKeyValueMap is inlined to
this dispatch, since its offset/length results are discarded there. -/
def writeValue (w : WState) (v : Value) : WState × Nat :=
  match v with
  | .vuint u =>
      let off := wCount w
      (wBytes (writeTag w .UnsignedInteger) (putUvarint u), off)
  | .vint i =>
      let off := wCount w
      (wBytes (writeTag w .Integer) (putVarint i), off)
  | .vfloat f =>
      let off := wCount w
      (wBytes (writeTag w .Float) (floatWireBytes (floatValue f)), off)
  | .vbytes bs =>
      let off := wCount w
      (appendBytesW (writeTag w .Bytes) bs, off)
  | .vstr s => writeStringW w s
  | .vstrSlice ss =>
      let off := wCount w
      let w1 := wBytes (writeTag w .StringSlice) (putUvarint ss.length)
      (ss.foldl appendBytesW w1, off)
  | .vbool b =>
      let off := wCount w
      (wByte (writeTag w .Boolean) (if b then 1 else 0), off)
  | .vkvmap entries =>
      let off := wCount w
      let w1 := writeTag w .KeyValueMap
      let tmp := w1.excludeWriteType
      let w2 := writeEntries w1 entries
      ({ w2 with excludeWriteType := tmp }, off)

/-- the `for k, v := range m` loop body of Writer.writeKeyValueMap. -/
def writeEntries (w : WState) (entries : List (List Nat × Value)) : WState :=
  match entries with
  | [] => w
  | (k, v) :: rest =>
      let w1 := { w with excludeWriteType := true }
      let w2 := (writeStringW w1 k).1
      let w3 := { w2 with excludeWriteType := false }
      let w4 := (writeValue w3 v).1
      writeEntries w4 rest

end

/-- Writer.Write: offset is the count before the record, length the count
difference after it (the in-memory sink never fails, so the error result
is always nil and is omitted). -/
def writeTop (w : WState) (v : Value) : WState × Nat × Nat :=
  let off := wCount w
  let w' := (writeValue w v).1
  (w', off, wCount w' - off)

/-- a fresh buffer-backed Writer: nothing written, tags not suppressed. -/
def freshW : WState := ⟨[], false⟩

/-- Writer.WriteRaw: raw append, returning the offset before the write. -/
def writeRaw (w : WState) (buf : List Nat) : WState × Nat :=
  (wBytes w buf, wCount w)

/-- the 64 KiB chunk size (`lz4BlockSize = 64 << 10`). -/
def lz4BlockSize : Nat := 64 <<< 10

/-- the chunk loop of Writer.WriteRawToLZ4Compress.  Each iteration reads
up to 64 KiB of the input into the scratch buffer `chunkData` (whose bytes
beyond the freshly read count keep their previous content, exactly as Go's
`r.Read(chunkData)` only overwrites the first n bytes), then hands the
WHOLE scratch buffer — not just the n bytes read — to the block-compression
primitive and raw-appends the primitive's output.  The primitive itself is
external (lz4.CompressBlock) and is passed in as `compress`. -/
def lz4ChunkLoop (compress : List Nat → List Nat) (w : WState)
    (remaining chunkData : List Nat) : WState :=
  let n := min lz4BlockSize remaining.length
  if n = 0 then w
  else
    let chunkData' := remaining.take n ++ chunkData.drop n
    lz4ChunkLoop compress (writeRaw w (compress chunkData')).1
      (remaining.drop n) chunkData'
termination_by remaining.length
decreasing_by
  simp only [List.length_drop]
  have hbs : 0 < lz4BlockSize := by decide
  omega

/-- Writer.WriteRawToLZ4Compress: splits the input through the chunk loop,
starting from a zero-initialized 64 KiB scratch buffer (`make` zero-fills),
and returns (state, starting offset, total compressed length). -/
def writeRawToLZ4Compress (compress : List Nat → List Nat) (w : WState)
    (buf : List Nat) : WState × Nat × Nat :=
  let off := wCount w
  let w' := lz4ChunkLoop compress w buf (List.replicate lz4BlockSize 0)
  (w', off, wCount w' - off)

/-- the (offset, length) results of a sequence of Writer.Write calls,
together with the final writer state. -/
def writeTrace (w : WState) : List Value → List (Nat × Nat) × WState
  | [] => ([], w)
  | v :: rest =>
      let r := writeTop w v
      let t := writeTrace r.1 rest
      ((r.2.1, r.2.2) :: t.1, t.2)

/-- the spec-side check that a list of (offset, length) pairs starts at the
given running total, every offset equals the running total of the lengths
before it, and every length is positive (hence the offsets are strictly
increasing). -/
def runningOffsets : Nat → List (Nat × Nat) → Bool
  | _, [] => true
  | acc, p :: rest => (p.1 == acc) && decide (0 < p.2) && runningOffsets (acc + p.2) rest

/-!  Claim theorems. -/

/-- C7: writing the signed integer 123123 on a fresh writer produces
exactly the byte sequence 0x02 0xE6 0x83 0x0F (tag 0x02 = Integer, then
the zigzag varint of 123123), and reading that stream back with the
wildcard expected type yields 123123 with resolved type Integer,
consuming all four bytes. -/
theorem c7_integer_123123_wire :
    writeTop freshW (.vint 123123) = (⟨[0x02, 0xE6, 0x83, 0x0F], false⟩, 0, 4) ∧
    readerGo 2 (.main .Any) ⟨[0x02, 0xE6, 0x83, 0x0F], 0⟩
      = .ok (.vInt 123123) .Integer ⟨[0x02, 0xE6, 0x83, 0x0F], 4⟩ :=
  ⟨rfl, rfl⟩

/-- C1: the round-trip fails for Float.  The stream written for the
float64 value 3.1415 (tag 0x04 = Float and its big-endian IEEE-754
double, the very bytes the repository's own reader test feeds to
`Read(Any)` expecting the value back) makes the Reader panic: the
ReadGivenType switch has no Float case, so the tag code 4 falls into the
`panic("cannot read value, unknown data type")` arm after the tag byte is
consumed. -/
theorem c1_float_decode_panics :
    DataType.Float.code = 4 ∧
    readerGo 2 (.main .Any) ⟨[0x04, 0x40, 0x09, 0x21, 0xCA, 0xC0, 0x83, 0x12, 0x6F], 0⟩
      = .panicked 4 ⟨[0x04, 0x40, 0x09, 0x21, 0xCA, 0xC0, 0x83, 0x12, 0x6F], 1⟩ :=
  ⟨rfl, rfl⟩

/-- C2: the writer does not emit the entry count the claim (and the
reader) require.  Writing the map with the single entry key "a" (byte 97)
to Integer 1 produces tag 9 then `01 61 02 02` — the tagless String "a"
followed by the tagged Integer 1 with NO count in front — and decoding
the writer's own output fails with end-of-data (the reader consumes the
key length byte as the count and then misparses).  The count-prefixed
stream the claim describes, tag 9 then `01 01 61 02 02`, does decode to
the map with entry ("a", Integer 1). -/
theorem c2_kvmap_count_missing :
    writeTop freshW (.vkvmap [([97], .vint 1)]) = (⟨[9, 1, 97, 2, 2], false⟩, 0, 5) ∧
    readerGo 9 (.main .Any) ⟨[9, 1, 97, 2, 2], 0⟩ = .fail .eofE ⟨[9, 1, 97, 2, 2], 5⟩ ∧
    readerGo 9 (.main .Any) ⟨[9, 1, 1, 97, 2, 2], 0⟩
      = .ok (.vMap [([97], .vInt 1)]) .KeyValueMap ⟨[9, 1, 1, 97, 2, 2], 6⟩ :=
  ⟨rfl, rfl, rfl⟩

/-- C3 counterexample: writing the float32 value 1.0 (bit pattern
0x3F800000) appends a 4-byte payload after the Float tag — the big-endian
IEEE-754 single of the input, not an 8-byte double — so the claim's
"exactly 8 bytes regardless of input width" is false. -/
theorem c3_float32_payload_counterexample :
    writeTop freshW (.vfloat (.f32 0x3F800000)) = (⟨[4, 0x3F, 0x80, 0, 0], false⟩, 0, 5) ∧
    ((writeTop freshW (.vfloat (.f32 0x3F800000))).1.out.drop 1).length = 4 ∧
    (4 : Nat) ≠ 8 :=
  ⟨rfl, rfl, by decide⟩

/-- C3 amended: a float64 write appends the Float tag and exactly the
8 big-endian bytes of the input's IEEE-754 double bit pattern, while a
float32 write appends only the 4 big-endian bytes of the single-width
pattern — floatValue preserves the input width instead of promoting. -/
theorem c3_float_payload_width (w : WState) (bits : Nat)
    (h : w.excludeWriteType = false) :
    (writeValue w (.vfloat (.f64 bits))).1.out
        = w.out ++ DataType.Float.code :: beBytes 8 bits ∧
    (beBytes 8 bits).length = 8 ∧
    (writeValue w (.vfloat (.f32 bits))).1.out
        = w.out ++ DataType.Float.code :: beBytes 4 bits ∧
    (beBytes 4 bits).length = 4 := by
  refine ⟨?_, ?_, ?_, ?_⟩ <;>
    simp [writeValue, writeTag, wByte, wBytes, floatWireBytes, floatValue, beBytes, h]

/-- C3 witness: the amended float-width statement at the concrete bit
pattern of the double 3.1415 on a fresh writer. -/
theorem c3_float_payload_width_witness :
    (writeValue freshW (.vfloat (.f64 0x400921CAC083126F))).1.out
        = freshW.out ++ DataType.Float.code :: beBytes 8 0x400921CAC083126F ∧
    (beBytes 8 0x400921CAC083126F).length = 8 ∧
    (writeValue freshW (.vfloat (.f32 0x400921CAC083126F))).1.out
        = freshW.out ++ DataType.Float.code :: beBytes 4 0x400921CAC083126F ∧
    (beBytes 4 0x400921CAC083126F).length = 4 :=
  c3_float_payload_width freshW 0x400921CAC083126F rfl

/-- C8: the byteSeeker.Read revision cited first by the claim compares the
cursor against the DESTINATION length (`from > int64(len(p))`) instead of
the buffer length.  At cursor 6 in a 10-byte buffer, a read into a 5-byte
destination reports end-of-data with zero bytes copied even though 4
bytes of content remain, while the revision accompanying the full Reader
(`from >= int64(len(b.buf))`) copies those 4 bytes as the claim states. -/
theorem c8_read_compares_destination_length :
    bsReadV1 ⟨List.replicate 10 7, 6⟩ 5 = ([], 0, true, ⟨List.replicate 10 7, 6⟩) ∧
    (6 : Int) < ((List.replicate 10 7 : List Nat).length : Int) ∧
    bsRead ⟨List.replicate 10 7, 6⟩ 5 = ([7, 7, 7, 7], 4, false, ⟨List.replicate 10 7, 10⟩) :=
  ⟨rfl, by decide, rfl⟩

/-- C9 counterexample: decoding from a source of exactly ten 0xFF bytes —
a source that holds the full maximum varint size, not fewer bytes —
fails with the buffer-too-small error, and decoding from the one-byte
source 0xFF — a source that IS shorter than the maximum varint size with
an incomplete varint — does not fail at all: the zero-filled look-ahead
window supplies a phantom terminator and the decode "succeeds" with 127.
Both facts contradict the claim's "buffer-too-small ... possible only
when the source holds fewer bytes than the maximum varint size". -/
theorem c9_failure_mode_counterexample :
    readUintR ⟨List.replicate 10 0xFF, 0⟩
        = .fail .bufTooSmall ⟨List.replicate 10 0xFF, 10⟩ ∧
    (List.replicate 10 0xFF : List Nat).length = maxVarintLen64 ∧
    readUintR ⟨[0xFF], 0⟩ = .ok 127 ⟨[0xFF], 1⟩ :=
  ⟨rfl, rfl, rfl⟩

/-- C10: for a recognized whence (0, 1 or 2), whenever the computed target
position is negative or beyond the last valid index, byteSeeker.Seek
returns an error (end-of-data or invalid-offset, never invalid-whence)
but the view's cursor has already been set to the out-of-range target;
only an unrecognized whence returns with the state untouched. -/
theorem c10_seek_mutates_on_error (b : ByteSeeker) (off : Int) (whence : Nat) :
    (whence ≤ 2 →
      (seekTarget b off whence < 0 ∨ (b.buf.length : Int) - 1 < seekTarget b off whence) →
      ∃ e, bsSeek b off whence = (0, some e, { b with offset := seekTarget b off whence })
        ∧ e ≠ RErr.invalidWhence) ∧
    (2 < whence → bsSeek b off whence = (0, some .invalidWhence, b)) := by
  constructor
  · intro hw hrange
    unfold bsSeek
    rw [if_pos hw]
    by_cases h1 : (b.buf.length : Int) - 1 < seekTarget b off whence
    · exact ⟨.eofE, by simp [h1], by simp⟩
    · have h0 : seekTarget b off whence < 0 := by omega
      exact ⟨.invalidOffset, by simp [h1, h0], by simp⟩
  · intro hw
    unfold bsSeek
    rw [if_neg (by omega)]

/-- C10 witness: seeking to absolute position 99 in a 3-byte view fails
yet leaves the cursor at 99. -/
theorem c10_seek_mutates_on_error_witness :
    ∃ e, bsSeek ⟨[5, 6, 7], 0⟩ 99 0 = (0, some e, ⟨[5, 6, 7], 99⟩)
      ∧ e ≠ RErr.invalidWhence :=
  (c10_seek_mutates_on_error ⟨[5, 6, 7], 0⟩ 99 0).1 (by decide) (by decide)

/-!  Varint lemmas: decoding an encoded value out of a window. -/

/-- bit-or of a value below `2 ^ s` with a value shifted left by `s` is
plain addition. -/
theorem lor_shiftLeft_eq_add {x s : Nat} (b : Nat) (h : x < 2 ^ s) :
    x ||| b <<< s = x + b * 2 ^ s := by
  calc x ||| b <<< s = x ||| b * 2 ^ s := by rw [Nat.shiftLeft_eq]
    _ = b * 2 ^ s ||| x := Nat.lor_comm _ _
    _ = 2 ^ s * b ||| x := by rw [mul_comm]
    _ = 2 ^ s * b + x := (Nat.mul_add_lt_is_or h b).symm
    _ = x + b * 2 ^ s := by ring

/-- binary.Uvarint consumes exactly the bytes binary.PutUvarint produced,
whatever follows them in the window, and reconstructs the encoded value:
stated over the loop with its running index, accumulator and shift. -/
theorem uvarintLoop_encode :
    ∀ (fuel i x v : Nat) (rest : List Nat),
      i ≤ 9 → 10 ≤ fuel + i → x < 2 ^ (7 * i) → v < 2 ^ (64 - 7 * i) →
      uvarintLoop (putUvarintAux fuel v ++ rest) i x (7 * i)
        = (x + v * 2 ^ (7 * i), (i : Int) + (putUvarintAux fuel v).length) := by
  intro fuel
  induction fuel with
  | zero => intro i x v rest hi hfuel hx hv; omega
  | succ f ih =>
      intro i x v rest hi hfuel hx hv
      rw [putUvarintAux]
      by_cases hsmall : v < 0x80
      · rw [if_pos hsmall]
        have hne : ¬ i = maxVarintLen64 := by simp [maxVarintLen64]; omega
        have hbound : x + v * 2 ^ (7 * i) < 2 ^ 64 := by
          have h1 : x + v * 2 ^ (7 * i) < (1 + v) * 2 ^ (7 * i) := by
            have := Nat.one_le_two_pow (n := 7 * i)
            nlinarith
          have h2 : (1 + v) * 2 ^ (7 * i) ≤ 2 ^ (64 - 7 * i) * 2 ^ (7 * i) := by
            have : 1 + v ≤ 2 ^ (64 - 7 * i) := by omega
            exact Nat.mul_le_mul_right _ this
          have h3 : 2 ^ (64 - 7 * i) * 2 ^ (7 * i) = 2 ^ 64 := by
            rw [← pow_add]; congr 1; omega
          omega
        by_cases hlast : i = 9
        · have hv1 : v ≤ 1 := by
            subst hlast; simp at hv; omega
          simp only [List.cons_append, uvarintLoop, if_neg hne, if_pos hsmall]
          rw [if_neg (by simp [maxVarintLen64]; omega)]
          rw [lor_shiftLeft_eq_add v hx, Nat.mod_eq_of_lt hbound]
          simp
        · simp only [List.cons_append, uvarintLoop, if_neg hne, if_pos hsmall]
          rw [if_neg (by simp [maxVarintLen64]; omega)]
          rw [lor_shiftLeft_eq_add v hx, Nat.mod_eq_of_lt hbound]
          simp
      · rw [if_neg hsmall]
        have hi8 : i ≤ 8 := by
          by_contra hgt
          have : i = 9 := by omega
          subst this
          simp at hv
          omega
        have hne : ¬ i = maxVarintLen64 := by simp [maxVarintLen64]; omega
        have hcont : ¬ (v % 0x80 + 0x80) < 0x80 := by omega
        have hmod : (v % 0x80 + 0x80) % 0x80 = v % 0x80 := by omega
        have hx' : x + v % 0x80 * 2 ^ (7 * i) < 2 ^ (7 * (i + 1)) := by
          have h1 : v % 0x80 ≤ 127 := by omega
          have h2 : x + v % 0x80 * 2 ^ (7 * i) < (1 + 127) * 2 ^ (7 * i) := by nlinarith
          have h3 : (128 : Nat) * 2 ^ (7 * i) = 2 ^ (7 * (i + 1)) := by
            rw [show 7 * (i + 1) = 7 + 7 * i by ring, pow_add]; norm_num
          omega
        have hxsmall : x + v % 0x80 * 2 ^ (7 * i) < 2 ^ 64 := by
          have : 2 ^ (7 * (i + 1)) ≤ 2 ^ 64 := Nat.pow_le_pow_right (by norm_num) (by omega)
          omega
        have hv' : v / 0x80 < 2 ^ (64 - 7 * (i + 1)) := by
          rw [Nat.div_lt_iff_lt_mul (by norm_num)]
          have : 2 ^ (64 - 7 * (i + 1)) * 0x80 = 2 ^ (64 - 7 * i) := by
            rw [show (0x80 : Nat) = 2 ^ 7 by norm_num, ← pow_add]
            congr 1; omega
          omega
        simp only [List.cons_append, uvarintLoop, if_neg hne, if_neg hcont]
        rw [hmod, lor_shiftLeft_eq_add (v % 0x80) hx, Nat.mod_eq_of_lt hxsmall]
        have hrec := ih (i + 1) (x + v % 0x80 * 2 ^ (7 * i)) (v / 0x80) rest
          (by omega) (by omega) (by rw [show 7 * (i + 1) = 7 * i + 7 by ring] at hx' ⊢; exact hx') hv'
        rw [show 7 * i + 7 = 7 * (i + 1) by ring]
        simp only [List.append_eq]
        rw [hrec]
        simp only [Prod.mk.injEq]
        constructor
        · have : v % 0x80 * 2 ^ (7 * i) + v / 0x80 * 2 ^ (7 * (i + 1))
              = v * 2 ^ (7 * i) := by
            rw [show 7 * (i + 1) = 7 + 7 * i by ring, pow_add]
            have := Nat.mod_add_div v 0x80
            nlinarith [Nat.mod_add_div v 0x80]
          omega
        · simp [List.length_cons]
          ring

/-- decoding a window that starts with an encoded uint64 succeeds with that
value and consumes exactly its encoded length, whatever follows. -/
theorem goUvarint_encode (u : Nat) (hu : u < 2 ^ 64) (rest : List Nat) :
    goUvarint (putUvarint u ++ rest) = (u, ((putUvarint u).length : Int)) := by
  have h := uvarintLoop_encode 10 0 0 u rest (by omega) (by omega) (by norm_num)
    (by simpa using hu)
  simpa [goUvarint, putUvarint, maxVarintLen64] using h

/-- a value below `2 ^ (7 k)` encodes into at most `k` bytes. -/
theorem putUvarintAux_length_le :
    ∀ (fuel k v : Nat), 1 ≤ k → k ≤ fuel → v < 2 ^ (7 * k) →
      (putUvarintAux fuel v).length ≤ k := by
  intro fuel
  induction fuel with
  | zero => intro k v h1 h2 h3; omega
  | succ f ih =>
      intro k v h1 h2 h3
      rw [putUvarintAux]
      by_cases hs : v < 0x80
      · simp [hs]; omega
      · rw [if_neg hs]
        have hk2 : 2 ≤ k := by
          by_contra h
          have hk1 : k = 1 := by omega
          subst hk1
          norm_num at h3
          omega
        have hdiv : v / 0x80 < 2 ^ (7 * (k - 1)) := by
          rw [Nat.div_lt_iff_lt_mul (by norm_num)]
          have hpow : 2 ^ (7 * (k - 1)) * 0x80 = 2 ^ (7 * k) := by
            rw [show (0x80 : Nat) = 2 ^ 7 by norm_num, ← pow_add]
            congr 1
            omega
          omega
        have := ih (k - 1) (v / 0x80) (by omega) (by omega) hdiv
        simp [List.length_cons]
        omega

/-- a uint64 value encodes into at most the maximum varint length. -/
theorem putUvarint_length_le (u : Nat) (hu : u < 2 ^ 64) :
    (putUvarint u).length ≤ 10 := by
  refine putUvarintAux_length_le 10 10 u (by omega) (by omega) ?_
  calc u < 2 ^ 64 := hu
    _ ≤ 2 ^ (7 * 10) := by norm_num

/-- the varint encoder always produces at least one byte. -/
theorem putUvarintAux_ne_nil (fuel v : Nat) : putUvarintAux fuel v ≠ [] := by
  cases fuel with
  | zero => simp [putUvarintAux]
  | succ f =>
      rw [putUvarintAux]
      split <;> simp

/-- evaluation of byteSeeker.Read at an in-range natural cursor: it copies
`min plen (remaining)` bytes and advances the cursor by that count. -/
theorem bsRead_eval (buf : List Nat) (k plen : Nat) (h : k < buf.length) :
    bsRead ⟨buf, (k : Int)⟩ plen
      = ((buf.drop k).take (min plen (buf.length - k)),
          min plen (buf.length - k), false,
          ⟨buf, ((k + min plen (buf.length - k) : Nat) : Int)⟩) := by
  rw [bsRead, if_neg (by push_cast; omega)]
  simp only [Int.toNat_natCast]
  have h1 : min (k + plen) buf.length - k = min plen (buf.length - k) := by omega
  have h2 : min (k + plen) buf.length = k + min plen (buf.length - k) := by omega
  rw [h1, h2]

/-- byteSeeker.Read signals io.EOF with nothing copied when the cursor is
at or past the end of the content. -/
theorem bsRead_eof (b : ByteSeeker) (plen : Nat) (h : (b.buf.length : Int) ≤ b.offset) :
    bsRead b plen = ([], 0, true, b) := by
  rw [bsRead, if_pos h]

/-- evaluation of byteSeeker.Seek relative to the current position when the
target is in range. -/
theorem bsSeek_current_ok (b : ByteSeeker) (d : Int) (h0 : 0 ≤ b.offset + d)
    (h1 : b.offset + d ≤ (b.buf.length : Int) - 1) :
    bsSeek b d 1 = (b.offset + d, none, { b with offset := b.offset + d }) := by
  rw [bsSeek, if_pos (by norm_num)]
  have ht : seekTarget b d 1 = b.offset + d := by
    rw [seekTarget, if_neg (by norm_num), if_pos rfl]
  rw [ht]
  dsimp only
  rw [if_neg (by omega), if_neg (by omega)]

/-- Reader.readUint decodes an encoded uint64 sitting at the cursor and
leaves the cursor exactly at the varint's end, no matter what precedes or
follows it in the buffer: the look-ahead window may over-read into the
following bytes, and the rewind seek puts the cursor back. -/
theorem readUintR_encode (u : Nat) (hu : u < 2 ^ 64) (front tail : List Nat) :
    readUintR ⟨front ++ (putUvarint u ++ tail), (front.length : Int)⟩
      = .ok u ⟨front ++ (putUvarint u ++ tail),
          ((front.length + (putUvarint u).length : Nat) : Int)⟩ := by
  have helen1 : 1 ≤ (putUvarint u).length :=
    List.length_pos.mpr (putUvarintAux_ne_nil _ _)
  have helen10 : (putUvarint u).length ≤ 10 := putUvarint_length_le u hu
  have hlen : (front ++ (putUvarint u ++ tail)).length
      = front.length + ((putUvarint u).length + tail.length) := by simp
  have hkL : front.length < (front ++ (putUvarint u ++ tail)).length := by omega
  rw [readUintR, bsRead_eval _ _ _ hkL]
  simp only
  have hrem : (front ++ (putUvarint u ++ tail)).length - front.length
      = (putUvarint u).length + tail.length := by omega
  rw [hrem, List.drop_left]
  set n := min maxVarintLen64 ((putUvarint u).length + tail.length) with hn
  have hmv : maxVarintLen64 = 10 := rfl
  have hn10 : n ≤ 10 := by omega
  have hnel : (putUvarint u).length ≤ n := by omega
  have hnle : n ≤ (putUvarint u).length + tail.length := by omega
  rw [List.take_append_eq_append_take, List.take_of_length_le hnel]
  have hclen : (putUvarint u ++ tail.take (n - (putUvarint u).length)).length = n := by
    simp
    omega
  rw [hclen, List.append_assoc, goUvarint_encode u hu]
  simp only
  rw [if_pos (show (0 : Int) < ((putUvarint u).length : Int) by exact_mod_cast helen1)]
  by_cases hcase : (putUvarint u).length < n
  · rw [if_pos (show (0 : Int) < (n : Int) - ((putUvarint u).length : Int) by omega)]
    rw [bsSeek_current_ok _ _ (by push_cast; omega) (by push_cast; omega)]
    simp only
    have hoff : ((front.length + n : Nat) : Int)
        + -((n : Int) - ((putUvarint u).length : Int))
        = ((front.length + (putUvarint u).length : Nat) : Int) := by
      push_cast
      ring
    rw [hoff]
  · rw [if_neg (show ¬ (0 : Int) < (n : Int) - ((putUvarint u).length : Int) by omega)]
    have heq : n = (putUvarint u).length := by omega
    rw [heq]

/-- C4: when the look-ahead window over-reads past a varint's end, the
decoder rewinds the source to exactly the varint's end: decoding two
consecutively encoded uint64 values from the start of a buffer returns
the first value with the cursor exactly at its encoded end, and the
second decode then returns the second value. -/
theorem c4_varint_rewind (u v : Nat) (hu : u < 2 ^ 64) (hv : v < 2 ^ 64) :
    readUintR ⟨putUvarint u ++ putUvarint v, 0⟩
        = .ok u ⟨putUvarint u ++ putUvarint v, ((putUvarint u).length : Int)⟩ ∧
    readUintR ⟨putUvarint u ++ putUvarint v, ((putUvarint u).length : Int)⟩
        = .ok v ⟨putUvarint u ++ putUvarint v,
            (((putUvarint u).length + (putUvarint v).length : Nat) : Int)⟩ := by
  constructor
  · have h := readUintR_encode u hu [] (putUvarint v)
    simpa using h
  · have h := readUintR_encode v hv (putUvarint u) []
    simpa using h

/-- C4 witness: the two-byte varint of 300 followed by the varint of 1;
the first decode's ten-byte window over-reads all three bytes and the
rewind leaves the cursor at offset 2, where the second decode finds 1. -/
theorem c4_varint_rewind_witness :
    readUintR ⟨[0xAC, 0x02, 0x01], 0⟩ = .ok 300 ⟨[0xAC, 0x02, 0x01], 2⟩ ∧
    readUintR ⟨[0xAC, 0x02, 0x01], 2⟩ = .ok 1 ⟨[0xAC, 0x02, 0x01], 3⟩ :=
  c4_varint_rewind 300 1 (by norm_num) (by norm_num)

/-- a decode loop that returns count zero ran off the end of its buffer:
every byte it saw had the continuation bit set. -/
theorem uvarintLoop_count_zero :
    ∀ (l : List Nat) (i x s : Nat), (uvarintLoop l i x s).2 = 0 → ∀ b ∈ l, 0x80 ≤ b := by
  intro l
  induction l with
  | nil =>
      intro i x s h b hb
      simp at hb
  | cons a rest ih =>
      intro i x s h b hb
      rw [uvarintLoop] at h
      by_cases h10 : i = maxVarintLen64
      · rw [if_pos h10] at h
        simp at h
        omega
      · rw [if_neg h10] at h
        by_cases hsm : a < 0x80
        · rw [if_pos hsm] at h
          by_cases hov : i = maxVarintLen64 - 1 ∧ 1 < a
          · rw [if_pos hov] at h
            simp at h
            omega
          · rw [if_neg hov] at h
            simp at h
            omega
        · rw [if_neg hsm] at h
          rcases List.mem_cons.mp hb with hb | hb
          · omega
          · exact ih _ _ _ h b hb

/-- C9 amended: over the in-memory byte view, a readUint failure is always
the buf-too-small or the overflow error, and buf-too-small occurs only
when the source holds at least the full maximum varint size beyond the
cursor (ten continuation bytes were read); a shorter source cannot
produce it because the zero-filled window always supplies a terminator. -/
theorem c9_two_failure_modes (st : ByteSeeker) (e : RErr) (st' : ByteSeeker)
    (h0 : 0 ≤ st.offset) (h : readUintR st = .fail e st') :
    (e = .bufTooSmall ∨ e = .overflow) ∧
    (e = .bufTooSmall → (maxVarintLen64 : Int) ≤ (st.buf.length : Int) - st.offset) := by
  obtain ⟨buf, off⟩ := st
  simp only at h0 h ⊢
  obtain ⟨k, rfl⟩ : ∃ k : Nat, off = (k : Int) :=
    ⟨off.toNat, (Int.toNat_of_nonneg h0).symm⟩
  by_cases hend : buf.length ≤ k
  · rw [readUintR] at h
    rw [bsRead_eof _ _ (by push_cast; omega)] at h
    dsimp only at h
    simp only [List.nil_append, List.length_nil, Nat.sub_zero] at h
    simp only [show goUvarint (List.replicate maxVarintLen64 0) = (0, 1) from rfl] at h
    norm_num at h
    exact absurd h (by simp)
  · have hklen : k < buf.length := by omega
    rw [readUintR, bsRead_eval buf k maxVarintLen64 hklen] at h
    dsimp only at h
    set n := min maxVarintLen64 (buf.length - k) with hn
    have hnle : n ≤ buf.length - k := by omega
    have hn10 : n ≤ maxVarintLen64 := by omega
    have hcoplen : ((buf.drop k).take n).length = n := by
      simp
      omega
    rw [hcoplen] at h
    rcases hd : goUvarint ((buf.drop k).take n ++ List.replicate (maxVarintLen64 - n) 0)
      with ⟨val, cnt⟩
    rw [hd] at h
    dsimp only at h
    by_cases hpos : (0 : Int) < cnt
    · rw [if_pos hpos] at h
      obtain ⟨c, rfl⟩ : ∃ c : Nat, cnt = (c : Int) := ⟨cnt.toNat, by omega⟩
      have hc1 : 1 ≤ c := by exact_mod_cast hpos
      by_cases hrw : (0 : Int) < (n : Int) - (c : Int)
      · rw [if_pos hrw] at h
        have hcn : c < n := by omega
        rw [bsSeek_current_ok _ _ (by push_cast; omega) (by push_cast; omega)] at h
        simp at h
      · rw [if_neg hrw] at h
        simp at h
    · rw [if_neg hpos] at h
      by_cases hz : cnt = 0
      · rw [if_pos hz] at h
        injection h with h1 h2
        subst h1
        have hallcont : ∀ b ∈ (buf.drop k).take n ++ List.replicate (maxVarintLen64 - n) 0,
            0x80 ≤ b := by
          apply uvarintLoop_count_zero _ 0 0 0
          have := congrArg Prod.snd hd
          simpa [goUvarint, hz] using this
        have hn_eq : n = maxVarintLen64 := by
          by_contra hne
          have hmem : (0 : Nat) ∈ (buf.drop k).take n ++ List.replicate (maxVarintLen64 - n) 0 :=
            List.mem_append_right _ (List.mem_replicate.mpr ⟨by omega, rfl⟩)
          have := hallcont 0 hmem
          omega
        refine ⟨Or.inl rfl, fun _ => ?_⟩
        omega
      · rw [if_neg hz] at h
        injection h with h1 h2
        subst h1
        refine ⟨Or.inr rfl, fun hc => ?_⟩
        simp at hc

/-- C9 witness: the amended failure-mode statement applied to the
ten-continuation-byte source, which fails with buf-too-small and indeed
holds the full maximum varint size. -/
theorem c9_two_failure_modes_witness :
    (RErr.bufTooSmall = RErr.bufTooSmall ∨ RErr.bufTooSmall = RErr.overflow) ∧
    (RErr.bufTooSmall = RErr.bufTooSmall →
      (maxVarintLen64 : Int) ≤ (((List.replicate 10 0xFF : List Nat).length : Int) - (0 : Int))) :=
  c9_two_failure_modes ⟨List.replicate 10 0xFF, 0⟩ .bufTooSmall ⟨List.replicate 10 0xFF, 10⟩
    (by norm_num) rfl

/-- the chunk loop stops when the input is exhausted. -/
theorem lz4ChunkLoop_stop (compress : List Nat → List Nat) (w : WState)
    (chunkData : List Nat) :
    lz4ChunkLoop compress w [] chunkData = w := by
  unfold lz4ChunkLoop
  simp

/-- one iteration of the chunk loop on a nonempty input. -/
theorem lz4ChunkLoop_step (compress : List Nat → List Nat) (w : WState)
    (remaining chunkData : List Nat) (h : remaining ≠ []) :
    lz4ChunkLoop compress w remaining chunkData
      = lz4ChunkLoop compress
          (writeRaw w (compress (remaining.take (min lz4BlockSize remaining.length)
            ++ chunkData.drop (min lz4BlockSize remaining.length)))).1
          (remaining.drop (min lz4BlockSize remaining.length))
          (remaining.take (min lz4BlockSize remaining.length)
            ++ chunkData.drop (min lz4BlockSize remaining.length)) := by
  have hpos : ¬ min lz4BlockSize remaining.length = 0 := by
    have h1 : 0 < remaining.length := List.length_pos.mpr h
    have h2 : 0 < lz4BlockSize := by decide
    omega
  conv_lhs => rw [lz4ChunkLoop]
  rw [if_neg hpos]

/-- a 64 KiB + 1 byte constant payload makes the loop call the compression
primitive twice, both times on the FULL 64 KiB scratch buffer: the second
call sees the single fresh byte followed by 64 KiB - 1 stale bytes of the
first chunk. -/
theorem lz4ChunkLoop_overrun (compress : List Nat → List Nat) (w : WState) (b : Nat) :
    lz4ChunkLoop compress w (List.replicate (lz4BlockSize + 1) b)
        (List.replicate lz4BlockSize 0)
      = (writeRaw (writeRaw w (compress (List.replicate lz4BlockSize b))).1
          (compress (List.replicate lz4BlockSize b))).1 := by
  have hB : (1 : Nat) ≤ lz4BlockSize := by decide
  have hmin1 : min lz4BlockSize (lz4BlockSize + 1) = lz4BlockSize := by omega
  have hmin2 : min lz4BlockSize 1 = 1 := by omega
  rw [lz4ChunkLoop_step compress w _ _ (by simp)]
  simp only [List.length_replicate, hmin1, List.take_replicate, List.drop_replicate,
    Nat.sub_self, List.replicate_zero, List.append_nil, Nat.min_self,
    Nat.add_sub_cancel_left]
  rw [lz4ChunkLoop_step compress _ _ _ (by simp)]
  simp only [List.length_replicate, hmin2, List.take_replicate, List.drop_replicate,
    Nat.min_self, Nat.sub_self, List.replicate_zero]
  rw [lz4ChunkLoop_stop]
  have hjoin : List.replicate 1 b ++ List.replicate (lz4BlockSize - 1) b
      = List.replicate lz4BlockSize b := by
    rw [← List.replicate_add]
    congr 1
  rw [hjoin]

/-- C6: the chunked compression write on a 64 KiB + 1 byte payload (all
bytes 7) does produce two chunks and return the starting offset and the
total compressed length, but the second chunk handed to the compression
primitive is the ENTIRE 64 KiB scratch buffer — the one fresh byte plus
64 KiB - 1 stale bytes left over from the first chunk — instead of the
single remaining payload byte.  Instantiating the external primitive with
the identity (so that decompression is also the identity), decompressing
both chunks in order and concatenating yields 128 KiB of data, not the
original 64 KiB + 1 payload. -/
theorem c6_chunked_compression_not_roundtrip :
    writeRawToLZ4Compress id freshW (List.replicate (lz4BlockSize + 1) 7)
      = (⟨List.replicate lz4BlockSize 7 ++ List.replicate lz4BlockSize 7, false⟩, 0,
          2 * lz4BlockSize) ∧
    (List.replicate (lz4BlockSize + 1) (7 : Nat)).length = lz4BlockSize + 1 ∧
    (List.replicate lz4BlockSize (7 : Nat) ++ List.replicate lz4BlockSize 7).length
      = 2 * lz4BlockSize ∧
    List.replicate lz4BlockSize (7 : Nat) ++ List.replicate lz4BlockSize 7
      ≠ List.replicate (lz4BlockSize + 1) 7 := by
  refine ⟨?_, List.length_replicate _ _, ?_, ?_⟩
  · have hstate : lz4ChunkLoop id freshW (List.replicate (lz4BlockSize + 1) 7)
          (List.replicate lz4BlockSize 0)
        = ⟨List.replicate lz4BlockSize 7 ++ List.replicate lz4BlockSize 7, false⟩ := by
      rw [lz4ChunkLoop_overrun id freshW 7]
      simp only [writeRaw, wBytes, wCount, freshW, id_eq]
      rw [List.nil_append]
    rw [writeRawToLZ4Compress, hstate]
    rw [show wCount freshW = 0 from rfl]
    rw [show wCount ⟨List.replicate lz4BlockSize 7 ++ List.replicate lz4BlockSize 7, false⟩
        = 2 * lz4BlockSize from by
      rw [wCount]
      rw [List.length_append, List.length_replicate, two_mul]]
    rw [Nat.sub_zero]
  · rw [List.length_append, List.length_replicate, two_mul]
  · intro hcontra
    have hlen := congrArg List.length hcontra
    rw [List.length_append, List.length_replicate, List.length_replicate] at hlen
    have hone : lz4BlockSize = 1 := by omega
    exact absurd hone (by decide)

/-!  Writer lemmas: every write only appends, preserves the tag toggle, and
(when the tag is not suppressed) appends at least one byte. -/

/-- writeTag appends the tag byte unless the toggle suppresses it. -/
theorem writeTag_out (w : WState) (t : DataType) :
    (writeTag w t).out = w.out ++ (if w.excludeWriteType then [] else [t.code])
      ∧ (writeTag w t).excludeWriteType = w.excludeWriteType := by
  rw [writeTag]
  by_cases h : w.excludeWriteType <;> simp [h, wByte]

/-- tag-then-payload writes append the optional tag byte and the payload. -/
theorem tagged_out (w : WState) (t : DataType) (payload : List Nat) :
    (wBytes (writeTag w t) payload).out
        = w.out ++ ((if w.excludeWriteType then [] else [t.code]) ++ payload)
      ∧ (wBytes (writeTag w t) payload).excludeWriteType = w.excludeWriteType := by
  obtain ⟨h1, h2⟩ := writeTag_out w t
  constructor
  · rw [wBytes]
    dsimp only
    rw [h1, List.append_assoc]
  · rw [wBytes]
    dsimp only
    exact h2

/-- appendBytes appends the length varint and the bytes. -/
theorem appendBytesW_out (w : WState) (b : List Nat) :
    (appendBytesW w b).out = w.out ++ (putUvarint b.length ++ b)
      ∧ (appendBytesW w b).excludeWriteType = w.excludeWriteType := by
  simp [appendBytesW, wBytes]

/-- the string-slice element loop only appends and keeps the toggle. -/
theorem foldl_appendBytesW_out :
    ∀ (ss : List (List Nat)) (w : WState),
      ∃ s, (ss.foldl appendBytesW w).out = w.out ++ s
        ∧ (ss.foldl appendBytesW w).excludeWriteType = w.excludeWriteType := by
  intro ss
  induction ss with
  | nil => intro w; exact ⟨[], by simp, rfl⟩
  | cons a rest ih =>
      intro w
      obtain ⟨s, hs, hf⟩ := ih (appendBytesW w a)
      obtain ⟨ha, haf⟩ := appendBytesW_out w a
      exact ⟨putUvarint a.length ++ a ++ s, by simp [hs, ha], by rw [List.foldl_cons, hf, haf]⟩

mutual

/-- every Writer.Write dispatch appends a suffix to the sink, restores the
tag-suppression toggle it found, and appends a nonempty suffix whenever
the toggle is off (the record then starts with its tag byte). -/
theorem writeValue_appends (w : WState) (v : Value) :
    ∃ s, (writeValue w v).1.out = w.out ++ s
      ∧ (writeValue w v).1.excludeWriteType = w.excludeWriteType
      ∧ (w.excludeWriteType = false → s ≠ []) := by
  cases v with
  | vuint u =>
      obtain ⟨h1, h2⟩ := tagged_out w .UnsignedInteger (putUvarint u)
      exact ⟨_, h1, h2, fun hf => by simp [hf]⟩
  | vint i =>
      obtain ⟨h1, h2⟩ := tagged_out w .Integer (putVarint i)
      exact ⟨_, h1, h2, fun hf => by simp [hf]⟩
  | vfloat f =>
      obtain ⟨h1, h2⟩ := tagged_out w .Float (floatWireBytes (floatValue f))
      exact ⟨_, h1, h2, fun hf => by simp [hf]⟩
  | vbytes bs =>
      obtain ⟨ht, htf⟩ := writeTag_out w .Bytes
      obtain ⟨ha, haf⟩ := appendBytesW_out (writeTag w .Bytes) bs
      refine ⟨(if w.excludeWriteType then [] else [DataType.Bytes.code])
        ++ (putUvarint bs.length ++ bs), ?_, ?_, fun hf => by simp [hf]⟩
      · show (appendBytesW (writeTag w .Bytes) bs).out = _
        rw [ha, ht, List.append_assoc]
      · show (appendBytesW (writeTag w .Bytes) bs).excludeWriteType = _
        rw [haf, htf]
  | vstr s =>
      obtain ⟨ht, htf⟩ := writeTag_out w .String
      obtain ⟨ha, haf⟩ := appendBytesW_out (writeTag w .String) s
      refine ⟨(if w.excludeWriteType then [] else [DataType.String.code])
        ++ (putUvarint s.length ++ s), ?_, ?_, fun hf => by simp [hf]⟩
      · show (appendBytesW (writeTag w .String) s).out = _
        rw [ha, ht, List.append_assoc]
      · show (appendBytesW (writeTag w .String) s).excludeWriteType = _
        rw [haf, htf]
  | vstrSlice ss =>
      obtain ⟨h1, h2⟩ := tagged_out w .StringSlice (putUvarint ss.length)
      obtain ⟨s2, hs2, hf2⟩ :=
        foldl_appendBytesW_out ss (wBytes (writeTag w .StringSlice) (putUvarint ss.length))
      refine ⟨((if w.excludeWriteType then [] else [DataType.StringSlice.code])
        ++ putUvarint ss.length) ++ s2, ?_, ?_, fun hf => by simp [hf]⟩
      · show (ss.foldl appendBytesW _).out = _
        rw [hs2, h1, List.append_assoc]
      · show (ss.foldl appendBytesW _).excludeWriteType = _
        rw [hf2, h2]
  | vbool b =>
      obtain ⟨ht, htf⟩ := writeTag_out w .Boolean
      refine ⟨(if w.excludeWriteType then [] else [DataType.Boolean.code])
        ++ [if b then 1 else 0], ?_, ?_, fun hf => by simp [hf]⟩
      · show (wByte (writeTag w .Boolean) _).out = _
        rw [wByte]
        dsimp only
        rw [ht, List.append_assoc]
      · show (wByte (writeTag w .Boolean) _).excludeWriteType = _
        rw [wByte]
        dsimp only
        exact htf
  | vkvmap entries =>
      obtain ⟨ht, htf⟩ := writeTag_out w .KeyValueMap
      obtain ⟨s2, hs2⟩ := writeEntries_appends (writeTag w .KeyValueMap) entries
      refine ⟨(if w.excludeWriteType then [] else [DataType.KeyValueMap.code]) ++ s2,
        ?_, ?_, fun hf => by simp [hf]⟩
      · show (writeEntries (writeTag w .KeyValueMap) entries).out = _
        rw [hs2, ht, List.append_assoc]
      · show (writeTag w .KeyValueMap).excludeWriteType = w.excludeWriteType
        exact htf

/-- the KeyValueMap entry loop only appends to the sink. -/
theorem writeEntries_appends (w : WState) (entries : List (List Nat × Value)) :
    ∃ s, (writeEntries w entries).out = w.out ++ s := by
  cases entries with
  | nil =>
      refine ⟨[], ?_⟩
      rw [writeEntries]
      simp
  | cons p rest =>
      obtain ⟨k, v⟩ := p
      obtain ⟨ht, _⟩ := writeTag_out { w with excludeWriteType := true } .String
      obtain ⟨ha, _⟩ :=
        appendBytesW_out (writeTag { w with excludeWriteType := true } .String) k
      obtain ⟨sv, hsv, _, _⟩ := writeValue_appends
        { appendBytesW (writeTag { w with excludeWriteType := true } .String) k with
            excludeWriteType := false } v
      obtain ⟨sr, hsr⟩ := writeEntries_appends
        (writeValue { appendBytesW (writeTag { w with excludeWriteType := true } .String) k with
            excludeWriteType := false } v).1 rest
      refine ⟨(putUvarint k.length ++ k) ++ sv ++ sr, ?_⟩
      rw [writeEntries]
      simp only [writeStringW]
      rw [hsr, hsv]
      rw [ha, ht]
      simp [List.append_assoc]

end

/-- Writer.Write reports the pre-write count as its offset, reports a
positive length, advances the count by exactly that length, and leaves
the toggle off when it found it off. -/
theorem writeTop_spec (w : WState) (v : Value) (hf : w.excludeWriteType = false) :
    (writeTop w v).2.1 = wCount w ∧
    wCount (writeTop w v).1 = wCount w + (writeTop w v).2.2 ∧
    0 < (writeTop w v).2.2 ∧
    (writeTop w v).1.excludeWriteType = false := by
  obtain ⟨s, hs, hflag, hne⟩ := writeValue_appends w v
  have hpos : 0 < s.length := List.length_pos.mpr (hne hf)
  have hlen : wCount (writeValue w v).1 = wCount w + s.length := by
    rw [wCount, wCount, hs, List.length_append]
  rw [writeTop]
  dsimp only
  exact ⟨rfl, by omega, by omega, by rw [hflag, hf]⟩

/-- a sequence of Write calls produces running-total offsets, a final count
equal to the starting count plus the sum of the reported lengths, and
leaves the toggle off. -/
theorem writeTrace_spec :
    ∀ (vs : List Value) (w : WState), w.excludeWriteType = false →
      runningOffsets (wCount w) (writeTrace w vs).1 = true ∧
      wCount (writeTrace w vs).2
        = wCount w + ((writeTrace w vs).1.map Prod.snd).sum ∧
      (writeTrace w vs).2.excludeWriteType = false := by
  intro vs
  induction vs with
  | nil =>
      intro w hf
      rw [writeTrace]
      exact ⟨rfl, by simp, hf⟩
  | cons v rest ih =>
      intro w hf
      obtain ⟨h1, h2, h3, h4⟩ := writeTop_spec w v hf
      obtain ⟨ih1, ih2, ih3⟩ := ih (writeTop w v).1 h4
      rw [writeTrace]
      dsimp only
      refine ⟨?_, ?_, ih3⟩
      · rw [runningOffsets]
        simp only [h1, h3, ← h2, beq_self_eq_true, Bool.true_and, decide_eq_true_eq,
          Bool.and_eq_true]
        exact ⟨trivial, ih1⟩
      · rw [List.map_cons, List.sum_cons, ih2, h2]
        ring

/-- the running-total check bounds every later offset from below. -/
theorem runningOffsets_lb :
    ∀ (ps : List (Nat × Nat)) (acc : Nat), runningOffsets acc ps = true →
      ∀ p ∈ ps, acc ≤ p.1 := by
  intro ps
  induction ps with
  | nil =>
      intro acc h p hp
      simp at hp
  | cons q rest ih =>
      intro acc h p hp
      rw [runningOffsets] at h
      simp only [Bool.and_eq_true, beq_iff_eq, decide_eq_true_eq] at h
      obtain ⟨⟨hq, hlen⟩, hrest⟩ := h
      rcases List.mem_cons.mp hp with rfl | hp
      · omega
      · have := ih (acc + q.2) hrest p hp
        omega

/-- running-total offsets with positive lengths are strictly increasing. -/
theorem runningOffsets_pairwise :
    ∀ (ps : List (Nat × Nat)) (acc : Nat), runningOffsets acc ps = true →
      List.Pairwise (· < ·) (ps.map Prod.fst) := by
  intro ps
  induction ps with
  | nil =>
      intro acc h
      simp
  | cons q rest ih =>
      intro acc h
      rw [runningOffsets] at h
      simp only [Bool.and_eq_true, beq_iff_eq, decide_eq_true_eq] at h
      obtain ⟨⟨hq, hlen⟩, hrest⟩ := h
      rw [List.map_cons]
      refine List.Pairwise.cons ?_ (ih _ hrest)
      intro b hb
      obtain ⟨p, hp, rfl⟩ := List.mem_map.mp hb
      have := runningOffsets_lb rest (acc + q.2) hrest p hp
      omega

/-- C5: for every sequence of Write calls on a fresh Writer (the in-memory
sink never fails, so every call succeeds), the reported offsets are the
running totals of the bytes encoded before each call, every reported
length is positive, the offsets are strictly increasing, and Offset()
(the HashWriter count) after the calls equals the sum of the reported
lengths. -/
theorem c5_offsets_monotone (vs : List Value) :
    runningOffsets 0 (writeTrace freshW vs).1 = true ∧
    wCount (writeTrace freshW vs).2 = ((writeTrace freshW vs).1.map Prod.snd).sum ∧
    List.Pairwise (· < ·) ((writeTrace freshW vs).1.map Prod.fst) := by
  obtain ⟨h1, h2, _⟩ := writeTrace_spec vs freshW rfl
  exact ⟨h1, by rw [h2, show wCount freshW = 0 from rfl, Nat.zero_add],
    runningOffsets_pairwise _ _ h1⟩
